import Mathlib

/-!
Verification of the Day18 in-memory vector similarity store
(`simple_vector_store.py` / `improved_search.py`).

Python dictionaries mapping terms to float weights are modelled as
association lists with exact rational weights (`List (String × ℚ)`);
floating-point arithmetic is idealized as exact arithmetic, with the
square root of `cosine_similarity` taken in `ℝ`.  Python's `list.sort`
is a stable sort with respect to a total order; on the `(score, id)`
lists built by `search` all elements are distinct (the ids are), so the
sorted result is the unique permutation sorted by the descending
lexicographic order and any correct sort computes it; we use
`List.insertionSort`.
-/

namespace Day18

/-- Sparse term-weight vector: a Python `dict[str, float]` value. -/
abbrev Vec := List (String × ℚ)

/-- Open metadata mapping attached to a document. -/
abbrev Metadata := List (String × String)

/-- Sum of the weights stored in a vector (`sum(vector.values())`). -/
def valueSum (v : Vec) : ℚ := (v.map Prod.snd).sum

/-- The keys of a Python dict are distinct; association lists standing
for dicts satisfy this predicate. -/
def keysNodup (v : Vec) : Prop := (v.map Prod.fst).Nodup

/-- Dictionary access with default 0 (`vec.get(word, 0)` / `vec[word]`
on a present key). -/
def lookup (v : Vec) (w : String) : ℚ :=
  (v.find? (fun p => p.1 = w)).elim 0 Prod.snd

/-- Key membership test (`word in vector`). -/
def hasKey (v : Vec) (w : String) : Bool := v.any (fun p => p.1 = w)

/-- One step of `vector[word] = vector.get(word, 0) + 1`: bump the entry
in place when the key is present, else append a fresh entry (Python
dicts preserve insertion order). -/
def bumpCount (v : Vec) (w : String) : Vec :=
  if hasKey v w then v.map (fun p => if p.1 = w then (p.1, p.2 + 1) else p)
  else v ++ [(w, 1)]

/-- The word-frequency counting loop shared by both
`create_word_vector` implementations. -/
def countTokens (tokens : List String) : Vec := tokens.foldl bumpCount []

/-- The normalization loop: divide every count by `total` when
`total > 0`, otherwise leave the vector unchanged. -/
def normalizeBy (v : Vec) (total : ℚ) : Vec :=
  if 0 < total then v.map (fun p => (p.1, p.2 / total)) else v

/-- `text.lower()` as a character list (ASCII lowering). -/
def lowerChars (s : String) : List Char := s.toList.map Char.toLower

/-- Split a character list at whitespace characters (the pieces between
whitespace, possibly empty). -/
def wsSplit (cs : List Char) : List (List Char) :=
  cs.foldr
    (fun c acc =>
      if c.isWhitespace then [] :: acc
      else
        match acc with
        | [] => [[c]]
        | w :: ws => (c :: w) :: ws)
    []

/-- `SimpleVectorStore`: `text.lower().split()` followed by the
per-word cleanup `''.join(c for c in word if c.isalnum())` and the
filter `if word and len(word) > 2`.  Python's `split()` drops empty
pieces; here they are dropped by the length filter, which only keeps
words of length at least 3 anyway. -/
def simpleTokens (text : String) : List String :=
  ((wsSplit (lowerChars text)).map
      (fun w => String.mk (w.filter Char.isAlphanum))).filter
    (fun w => decide (2 < w.length))

/-- `SimpleVectorStore.create_word_vector`: count cleaned words, then
normalize by `total_words = sum(vector.values())` when positive. -/
def SVS_create_word_vector (text : String) : Vec :=
  normalizeBy (countTokens (simpleTokens text))
    (valueSum (countTokens (simpleTokens text)))

/-- The stop-word set hard-coded in `ImprovedVectorStore.__init__`. -/
def stop_words : List String :=
  ["the", "a", "an", "and", "or", "but", "in", "on", "at", "to", "for",
   "of", "with", "by", "is", "are", "was", "were", "be", "been", "have",
   "has", "had", "do", "does", "did", "will", "would", "could", "should",
   "this", "that", "these", "those", "it", "its", "as", "can", "from"]

/-- One iteration of the character loop of
`ImprovedVectorStore.preprocess_text`: extend the current word on an
alphanumeric character, flush it (when non-empty) on anything else. -/
def extractStep (acc : List (List Char) × List Char) (c : Char) :
    List (List Char) × List Char :=
  if c.isAlphanum then (acc.1, acc.2 ++ [c])
  else if acc.2 = [] then acc
  else (acc.1 ++ [acc.2], [])

/-- The final `if current_word: words.append(current_word)` of the
extraction loop. -/
def flushWord (r : List (List Char) × List Char) : List (List Char) :=
  if r.2 = [] then r.1 else r.1 ++ [r.2]

/-- The word-extraction loop of `preprocess_text`, including the final
flush of `current_word`. -/
def extractWordsL (cs : List Char) : List (List Char) :=
  flushWord (cs.foldl extractStep ([], []))

/-- `ImprovedVectorStore.preprocess_text`: lowercase, extract
alphanumeric words, then keep words of length above 2 that are not stop
words. -/
def preprocess_text (text : String) : List String :=
  ((extractWordsL (lowerChars text)).map (fun w => String.mk w)).filter
    (fun w => decide (2 < w.length) && !(stop_words.contains w))

/-- `ImprovedVectorStore.create_word_vector`: count the preprocessed
words, then normalize by `total_words = len(words)` when positive. -/
def IVS_create_word_vector (text : String) : Vec :=
  normalizeBy (countTokens (preprocess_text text)) ((preprocess_text text).length : ℚ)

/-- `common_words = set(vec1.keys()) & set(vec2.keys())`, listed in
`vec1` key order.  For dict-shaped inputs (`keysNodup`) every common
key occurs exactly once, matching the Python set. -/
def commonWords (v1 v2 : Vec) : List String :=
  (v1.map Prod.fst).filter (fun w => hasKey v2 w)

/-- `sum(vec1[word] * vec2[word] for word in common_words)`. -/
def dotProduct (v1 v2 : Vec) : ℚ :=
  ((commonWords v1 v2).map (fun w => lookup v1 w * lookup v2 w)).sum

/-- `sum(val**2 for val in vec.values())`. -/
def sumSquares (v : Vec) : ℚ := (v.map (fun p => p.2 ^ 2)).sum

/-- `math.sqrt(sum(val**2 for val in vec.values()))`. -/
noncomputable def magnitude (v : Vec) : ℝ := Real.sqrt ((sumSquares v : ℚ) : ℝ)

/-- `cosine_similarity`, defined identically in `SimpleVectorStore` and
`ImprovedVectorStore`: 0.0 on an empty key intersection, 0.0 when either
magnitude is 0, else the normalized dot product. -/
noncomputable def cosine_similarity (v1 v2 : Vec) : ℝ :=
  if commonWords v1 v2 = [] then 0
  else if magnitude v1 = 0 ∨ magnitude v2 = 0 then 0
  else (dotProduct v1 v2 : ℝ) / (magnitude v1 * magnitude v2)

/-- The state of a vector store: the three fields set up in
`__init__` (`ImprovedVectorStore` adds only the constant stop-word
set). `word_vectors` is a dict keyed by integer ids. -/
structure Store where
  documents : List String
  metadata : List Metadata
  word_vectors : List (Nat × Vec)
deriving DecidableEq

/-- A freshly constructed store. -/
def emptyStore : Store := ⟨[], [], []⟩

/-- Dict assignment `d[k] = v` on an integer-keyed dict. -/
def dictInsert (d : List (Nat × Vec)) (k : Nat) (v : Vec) : List (Nat × Vec) :=
  if d.any (fun p => p.1 = k) then d.map (fun p => if p.1 = k then (p.1, v) else p)
  else d ++ [(k, v)]

/-- Dict access `d[k]` (total here; `search` only reads keys that are
present in every reachable store). -/
def dictGet (d : List (Nat × Vec)) (k : Nat) : Vec :=
  ((d.find? (fun p => p.1 = k)).map Prod.snd).getD []

/-- `SimpleVectorStore.add_document`: append text and metadata, then
store the vector under id `len(self.documents) - 1`. -/
def SVS_add_document (s : Store) (text : String) (md : Metadata) : Store :=
  { documents := s.documents ++ [text]
    metadata := s.metadata ++ [md]
    word_vectors := dictInsert s.word_vectors ((s.documents ++ [text]).length - 1)
      (SVS_create_word_vector text) }

/-- `ImprovedVectorStore.add_document` (same shape, improved vectors). -/
def IVS_add_document (s : Store) (text : String) (md : Metadata) : Store :=
  { documents := s.documents ++ [text]
    metadata := s.metadata ++ [md]
    word_vectors := dictInsert s.word_vectors ((s.documents ++ [text]).length - 1)
      (IVS_create_word_vector text) }

/-- A store built by a sequence of `add_document` calls on a fresh
`SimpleVectorStore`. -/
def buildStore (calls : List (String × Metadata)) : Store :=
  calls.foldl (fun s c => SVS_add_document s c.1 c.2) emptyStore

/-- The order in which `similarities.sort(reverse=True)` arranges the
`(score, idx)` tuples: descending lexicographic order, i.e. `a` comes
before `b` when `b ≤ a` in the lexicographic product order. -/
def descLex (a b : ℝ × Nat) : Prop := b.1 < a.1 ∨ (b.1 = a.1 ∧ b.2 ≤ a.2)

noncomputable instance : DecidableRel descLex := fun _ _ => Classical.dec _

instance : IsTotal (ℝ × Nat) descLex :=
  ⟨by
    intro a b
    rcases lt_trichotomy a.1 b.1 with h | h | h
    · exact Or.inr (Or.inl h)
    · rcases le_total a.2 b.2 with h2 | h2
      · exact Or.inr (Or.inr ⟨h, h2⟩)
      · exact Or.inl (Or.inr ⟨h.symm, h2⟩)
    · exact Or.inl (Or.inl h)⟩

instance : IsTrans (ℝ × Nat) descLex :=
  ⟨by
    intro a b c hab hbc
    rcases hab with h1 | ⟨h1, h1'⟩
    · rcases hbc with h2 | ⟨h2, _⟩
      · exact Or.inl (h2.trans h1)
      · exact Or.inl (h2 ▸ h1)
    · rcases hbc with h2 | ⟨h2, h2'⟩
      · exact Or.inl (h1 ▸ h2)
      · exact Or.inr ⟨h2.trans h1, h2'.trans h1'⟩⟩

/-- The ranking stage shared by both `search` implementations: build
the `(score, idx)` list over all ids `0 .. n-1`, sort it with
`reverse=True`, and keep the first `k` entries. -/
noncomputable def rankPairs (scoreOf : Nat → ℝ) (n k : Nat) : List (ℝ × Nat) :=
  (List.insertionSort descLex ((List.range n).map (fun idx => (scoreOf idx, idx)))).take k

/-- The sorted, truncated `(score, idx)` list computed inside
`SimpleVectorStore.search`. -/
noncomputable def SVS_ranked (s : Store) (query : String) (k : Nat) : List (ℝ × Nat) :=
  rankPairs
    (fun idx => cosine_similarity (SVS_create_word_vector query) (dictGet s.word_vectors idx))
    s.documents.length k

/-- `SimpleVectorStore.search`: cosine-score every document against the
query vector, sort descending, and return `(text, score, metadata)`
triples for the top `k`. -/
noncomputable def SVS_search (s : Store) (query : String) (k : Nat) :
    List (String × ℝ × Metadata) :=
  (SVS_ranked s query k).map (fun p => (s.documents.getD p.2 "", p.1, s.metadata.getD p.2 []))

/-- `ImprovedVectorStore.keyword_overlap_score`: the fraction of the
distinct query words that occur in the preprocessed document. -/
def keyword_overlap_score (query_words : List String) (doc_text : String) : ℚ :=
  let doc_words := preprocess_text doc_text
  let qset := query_words.dedup
  if qset = [] then 0
  else ((qset.filter (fun w => doc_words.contains w)).length : ℚ) / (qset.length : ℚ)

/-- The combined score `0.7 * cosine + 0.3 * overlap` of
`ImprovedVectorStore.search` (float constants idealized as reals). -/
noncomputable def IVS_score (s : Store) (query : String) (idx : Nat) : ℝ :=
  (7 / 10 : ℝ) * cosine_similarity (IVS_create_word_vector query) (dictGet s.word_vectors idx)
    + (3 / 10 : ℝ) * ((keyword_overlap_score (preprocess_text query) (s.documents.getD idx "") : ℚ) : ℝ)

/-- `ImprovedVectorStore.search`. -/
noncomputable def IVS_search (s : Store) (query : String) (k : Nat) :
    List (String × ℝ × Metadata) :=
  (rankPairs (IVS_score s query) s.documents.length k).map
    (fun p => (s.documents.getD p.2 "", p.1, s.metadata.getD p.2 []))

/-- `str(n)` for the non-negative int keys of `word_vectors`, as
produced by `json.dump` for the saved dict keys. -/
def natToString (n : Nat) : String :=
  if n = 0 then "0"
  else String.mk (((Nat.digits 10 n).reverse).map (fun d => Char.ofNat (48 + d)))

/-- `int(k)` on the string keys read back by `load`, restricted to the
digit strings that `json.dump` writes for non-negative int keys;
anything else raises `ValueError`, modelled as `none`. -/
def stringToNat? (s : String) : Option Nat :=
  if s.toList ≠ [] ∧ s.toList.all Char.isDigit
  then some (Nat.ofDigits 10 ((s.toList.map (fun c => c.toNat - 48)).reverse))
  else none

/-- The JSON object written by `SimpleVectorStore.save` and read back by
`load`; a missing field models data whose subscript access raises. -/
structure RawData where
  documents : Option (List String)
  metadata : Option (List Metadata)
  word_vectors : Option (List (String × Vec))
deriving DecidableEq

/-- `SimpleVectorStore.save`: serialize the three fields, the dict keys
becoming strings as JSON object keys. -/
def SVS_save (s : Store) : RawData :=
  ⟨some s.documents, some s.metadata,
   some (s.word_vectors.map (fun p => (natToString p.1, p.2)))⟩

/-- `{int(k): v for k, v in data['word_vectors'].items()}`: the whole
comprehension is evaluated before the assignment, raising if any key
fails to parse. -/
def parseKeys : List (String × Vec) → Option (List (Nat × Vec))
  | [] => some []
  | p :: rest =>
    match stringToNat? p.1, parseKeys rest with
    | some n, some rest' => some ((n, p.2) :: rest')
    | _, _ => none

/-- The Python exceptions `load` can raise past the JSON parse:
`KeyError` from a missing field, `ValueError` from `int(k)`. -/
inductive LoadErr where
  | keyError : LoadErr
  | valueError : LoadErr
deriving DecidableEq

/-- `SimpleVectorStore.load`: the three assignments run in order, so an
error raised by a later field access leaves the earlier assignments in
place.  Returns the raised error (if any) together with the resulting
in-memory state. -/
def SVS_load (s : Store) (d : RawData) : Option LoadErr × Store :=
  match d.documents with
  | none => (some LoadErr.keyError, s)
  | some docs =>
    let s1 := { s with documents := docs }
    match d.metadata with
    | none => (some LoadErr.keyError, s1)
    | some md =>
      let s2 := { s1 with metadata := md }
      match d.word_vectors with
      | none => (some LoadErr.keyError, s2)
      | some wv =>
        match parseKeys wv with
        | none => (some LoadErr.valueError, s2)
        | some wv' => (none, { s2 with word_vectors := wv' })

theorem lengthDropWhile_le {α : Type} (p : α → Bool) (l : List α) :
    (l.dropWhile p).length ≤ l.length :=
  (List.dropWhile_sublist p).length_le

theorem not_of_dropWhileNot_cons {α : Type} {p : α → Bool} :
    ∀ (l : List α) (c : α) (cs : List α), l.dropWhile p = c :: cs → p c = false := by
  intro l
  induction l with
  | nil => intro c cs h; simp [List.dropWhile] at h
  | cons a as ih =>
    intro c cs h
    rw [List.dropWhile_cons] at h
    by_cases hp : p a = true
    · rw [if_pos hp] at h; exact ih c cs h
    · rw [if_neg hp] at h
      cases h
      simpa using hp

/-- Modelled from the spec: the maximal runs of alphanumeric characters
of a character list, every non-alphanumeric character acting as a
separator that is discarded.  Spec-side counterpart of the accumulator
loop in `preprocess_text`. -/
def maximalRuns (l : List Char) : List (List Char) :=
  if hl : l.dropWhile (fun c => !c.isAlphanum) = [] then []
  else
    (l.dropWhile (fun c => !c.isAlphanum)).takeWhile Char.isAlphanum
      :: maximalRuns ((l.dropWhile (fun c => !c.isAlphanum)).dropWhile Char.isAlphanum)
termination_by l.length
decreasing_by
  rcases hd : l.dropWhile (fun c => !c.isAlphanum) with _ | ⟨c, cs⟩
  · exact absurd hd hl
  · have hc : c.isAlphanum = true := by
      have := not_of_dropWhileNot_cons l c cs hd
      simpa using this
    rw [hd, List.dropWhile_cons, if_pos hc]
    calc (cs.dropWhile Char.isAlphanum).length ≤ cs.length :=
          lengthDropWhile_le Char.isAlphanum cs
      _ < (c :: cs).length := Nat.lt_succ_self _
      _ ≤ l.length := by
          have : (c :: cs).Sublist l := hd ▸ List.dropWhile_sublist _
          exact this.length_le

/-- Modelled from the spec: lowercase, take maximal alphanumeric runs,
then discard short tokens and stop words.  Spec-side counterpart of
`preprocess_text`. -/
def tokenizeSpec (text : String) : List String :=
  ((maximalRuns (lowerChars text)).map (fun w => String.mk w)).filter
    (fun w => decide (2 < w.length) && !(stop_words.contains w))

theorem valueSum_nil : valueSum [] = 0 := rfl

theorem valueSum_cons (p : String × ℚ) (v : Vec) :
    valueSum (p :: v) = p.2 + valueSum v := by
  simp [valueSum]

theorem valueSum_append (v v' : Vec) :
    valueSum (v ++ v') = valueSum v + valueSum v' := by
  simp [valueSum]

theorem hasKey_iff {v : Vec} {w : String} :
    hasKey v w = true ↔ w ∈ v.map Prod.fst := by
  simp [hasKey, List.any_eq_true, List.mem_map]

theorem mapBump_keys (v : Vec) (w : String) :
    (v.map (fun p => if p.1 = w then (p.1, p.2 + 1) else p)).map Prod.fst
      = v.map Prod.fst := by
  rw [List.map_map]
  apply List.map_congr_left
  intro p _
  by_cases hp : p.1 = w <;> simp [hp]

theorem mapBump_of_absent (v : Vec) (w : String) (h : ∀ q ∈ v, q.1 ≠ w) :
    v.map (fun p => if p.1 = w then (p.1, p.2 + 1) else p) = v := by
  have : ∀ q ∈ v, (if q.1 = w then (q.1, q.2 + 1) else q) = id q := by
    intro q hq; rw [if_neg (h q hq)]; rfl
  rw [List.map_congr_left this, List.map_id]

theorem valueSum_mapBump (w : String) :
    ∀ v : Vec, keysNodup v → hasKey v w = true →
      valueSum (v.map (fun p => if p.1 = w then (p.1, p.2 + 1) else p))
        = valueSum v + 1 := by
  intro v
  induction v with
  | nil => intro _ h; simp [hasKey] at h
  | cons p rest ih =>
    intro hnd hk
    have hnd' : p.1 ∉ rest.map Prod.fst ∧ keysNodup rest := by
      simpa [keysNodup, List.nodup_cons] using hnd
    by_cases hp : p.1 = w
    · have hrest : ∀ q ∈ rest, q.1 ≠ w := by
        intro q hq hqw
        exact hnd'.1 (hp ▸ hqw ▸ List.mem_map_of_mem Prod.fst hq)
      simp only [List.map_cons, if_pos hp, mapBump_of_absent rest w hrest,
        valueSum_cons]
      ring
    · have hk' : hasKey rest w = true := by
        rcases hasKey_iff.mp hk with hmem
        rcases (List.mem_map).mp hmem with ⟨q, hq, hqw⟩
        rcases List.mem_cons.mp hq with rfl | hq'
        · exact absurd hqw.symm (fun h => hp h.symm)
        · exact hasKey_iff.mpr (hqw ▸ List.mem_map_of_mem Prod.fst hq')
      simp only [List.map_cons, if_neg hp, valueSum_cons,
        ih hnd'.2 hk']
      ring

theorem bumpCount_keysNodup {v : Vec} (w : String) (hnd : keysNodup v) :
    keysNodup (bumpCount v w) := by
  unfold bumpCount
  by_cases hk : hasKey v w = true
  · rw [if_pos hk]
    unfold keysNodup
    rw [mapBump_keys]
    exact hnd
  · have hw : w ∉ v.map Prod.fst := fun hmem => hk (hasKey_iff.mpr hmem)
    rw [if_neg hk]
    unfold keysNodup
    rw [List.map_append]
    simp only [List.map_cons, List.map_nil]
    exact List.Nodup.append hnd (List.nodup_singleton w)
      (fun a ha hb => hw (by rwa [List.mem_singleton.mp hb] at ha))

theorem bumpCount_valueSum {v : Vec} (w : String) (hnd : keysNodup v) :
    valueSum (bumpCount v w) = valueSum v + 1 := by
  unfold bumpCount
  by_cases hk : hasKey v w = true
  · rw [if_pos hk]; exact valueSum_mapBump w v hnd hk
  · rw [if_neg hk, valueSum_append]
    simp [valueSum]

theorem countTokens_invariant :
    ∀ (tokens : List String) (acc : Vec), keysNodup acc →
      keysNodup (tokens.foldl bumpCount acc) ∧
        valueSum (tokens.foldl bumpCount acc) = valueSum acc + tokens.length := by
  intro tokens
  induction tokens with
  | nil => intro acc h; exact ⟨h, by simp⟩
  | cons t rest ih =>
    intro acc h
    have h1 := bumpCount_keysNodup t h
    rcases ih (bumpCount acc t) h1 with ⟨hnd, hsum⟩
    refine ⟨hnd, ?_⟩
    rw [List.foldl_cons] at *
    rw [hsum, bumpCount_valueSum t h]
    push_cast [List.length_cons]
    ring

theorem countTokens_keysNodup (tokens : List String) :
    keysNodup (countTokens tokens) :=
  (countTokens_invariant tokens [] (by simp [keysNodup])).1

theorem countTokens_valueSum (tokens : List String) :
    valueSum (countTokens tokens) = tokens.length := by
  have := (countTokens_invariant tokens [] (by simp [keysNodup])).2
  simpa [countTokens, valueSum] using this

theorem valueSum_normalize (v : Vec) (T : ℚ) :
    valueSum (v.map (fun p => (p.1, p.2 / T))) = valueSum v / T := by
  induction v with
  | nil => simp [valueSum]
  | cons p rest ih =>
    simp only [List.map_cons, valueSum_cons, ih, add_div]

/-- C5: for every input text, if at least one token survives
tokenization/filtering then the weights of the vector produced by
`create_word_vector` sum to 1.0 (within 1e-9: in the exact-rational
model the sum is exactly 1), and if zero tokens survive then
`create_word_vector` returns the empty mapping, never an error; this
holds for `SimpleVectorStore` and `ImprovedVectorStore` alike. -/
theorem C5_vectorize_normalization (text : String) :
    (simpleTokens text ≠ [] →
      |valueSum (SVS_create_word_vector text) - 1| ≤ 1 / 1000000000) ∧
    (simpleTokens text = [] → SVS_create_word_vector text = []) ∧
    (preprocess_text text ≠ [] →
      |valueSum (IVS_create_word_vector text) - 1| ≤ 1 / 1000000000) ∧
    (preprocess_text text = [] → IVS_create_word_vector text = []) := by
  refine ⟨?_, ?_, ?_, ?_⟩
  · intro h
    have hlen : 0 < (simpleTokens text).length := List.length_pos.mpr h
    have hq : (0 : ℚ) < ((simpleTokens text).length : ℚ) := by exact_mod_cast hlen
    have hsum := countTokens_valueSum (simpleTokens text)
    unfold SVS_create_word_vector normalizeBy
    rw [hsum, if_pos hq, valueSum_normalize, hsum, div_self (ne_of_gt hq)]
    norm_num
  · intro h
    unfold SVS_create_word_vector
    rw [h]
    rfl
  · intro h
    have hlen : 0 < (preprocess_text text).length := List.length_pos.mpr h
    have hq : (0 : ℚ) < ((preprocess_text text).length : ℚ) := by exact_mod_cast hlen
    unfold IVS_create_word_vector normalizeBy
    rw [if_pos hq, valueSum_normalize, countTokens_valueSum,
      div_self (ne_of_gt hq)]
    norm_num
  · intro h
    unfold IVS_create_word_vector
    rw [h]
    rfl

/-- C5 witness: a text with surviving tokens whose vector weights sum
to 1, and a text with zero surviving tokens yielding the empty map. -/
theorem C5_vectorize_normalization_witness :
    (simpleTokens "hello hello world" ≠ [] ∧
      |valueSum (SVS_create_word_vector "hello hello world") - 1| ≤ 1 / 1000000000) ∧
    (preprocess_text "it is" = [] ∧ IVS_create_word_vector "it is" = []) :=
  ⟨⟨by decide, (C5_vectorize_normalization "hello hello world").1 (by decide)⟩,
   ⟨by decide, (C5_vectorize_normalization "it is").2.2.2 (by decide)⟩⟩

theorem lookup_nonneg {v : Vec} (h : ∀ p ∈ v, 0 ≤ p.2) (w : String) :
    0 ≤ lookup v w := by
  unfold lookup
  cases hf : v.find? (fun p => p.1 = w) with
  | none => simp [Option.elim]
  | some p => simpa using h p (List.mem_of_find?_eq_some hf)

theorem lookup_of_mem {v : Vec} (hnd : keysNodup v) {p : String × ℚ} (hp : p ∈ v) :
    lookup v p.1 = p.2 := by
  induction v with
  | nil => cases hp
  | cons q rest ih =>
    have hnd' : q.1 ∉ rest.map Prod.fst ∧ keysNodup rest := by
      simpa [keysNodup, List.nodup_cons] using hnd
    rcases List.mem_cons.mp hp with rfl | hp'
    · unfold lookup
      rw [List.find?_cons_of_pos _ (by simp)]
      rfl
    · have hq : q.1 ≠ p.1 := by
        intro hqp
        exact hnd'.1 (hqp ▸ List.mem_map_of_mem Prod.fst hp')
      unfold lookup
      rw [List.find?_cons_of_neg _ (by simpa using hq)]
      exact ih hnd'.2 hp'

theorem sumSquares_nonneg (v : Vec) : 0 ≤ sumSquares v :=
  List.sum_nonneg (by
    intro x hx
    rcases List.mem_map.mp hx with ⟨p, _, rfl⟩
    positivity)

theorem magnitude_nonneg (v : Vec) : 0 ≤ magnitude v := Real.sqrt_nonneg _

theorem sumSquares_eq_sum_lookup {v : Vec} (hnd : keysNodup v) :
    sumSquares v = ∑ w ∈ (v.map Prod.fst).toFinset, lookup v w ^ 2 := by
  unfold sumSquares
  rw [List.sum_toFinset _ hnd, List.map_map]
  congr 1
  apply List.map_congr_left
  intro p hp
  simp only [Function.comp_apply]
  rw [lookup_of_mem hnd hp]

theorem commonWords_nodup {v1 v2 : Vec} (hnd : keysNodup v1) :
    (commonWords v1 v2).Nodup :=
  hnd.filter _

theorem commonWords_subset_left (v1 v2 : Vec) :
    (commonWords v1 v2).toFinset ⊆ (v1.map Prod.fst).toFinset := by
  intro w hw
  simp only [List.mem_toFinset] at *
  exact List.mem_of_mem_filter hw

theorem commonWords_subset_right (v1 v2 : Vec) :
    (commonWords v1 v2).toFinset ⊆ (v2.map Prod.fst).toFinset := by
  intro w hw
  simp only [List.mem_toFinset] at *
  exact hasKey_iff.mp (List.of_mem_filter hw)

theorem dotProduct_eq_sum {v1 v2 : Vec} (hnd : keysNodup v1) :
    dotProduct v1 v2 = ∑ w ∈ (commonWords v1 v2).toFinset, lookup v1 w * lookup v2 w := by
  unfold dotProduct
  rw [List.sum_toFinset _ (commonWords_nodup hnd)]

theorem sq_sum_le_sumSquares {v : Vec} (hnd : keysNodup v) (F : Finset String)
    (hF : F ⊆ (v.map Prod.fst).toFinset) :
    ∑ w ∈ F, lookup v w ^ 2 ≤ sumSquares v := by
  rw [sumSquares_eq_sum_lookup hnd]
  exact Finset.sum_le_sum_of_subset_of_nonneg hF (fun i _ _ => sq_nonneg _)

theorem dotProduct_nonneg {v1 v2 : Vec} (h1 : ∀ p ∈ v1, 0 ≤ p.2)
    (h2 : ∀ p ∈ v2, 0 ≤ p.2) : 0 ≤ dotProduct v1 v2 :=
  List.sum_nonneg (by
    intro x hx
    rcases List.mem_map.mp hx with ⟨w, _, rfl⟩
    exact mul_nonneg (lookup_nonneg h1 w) (lookup_nonneg h2 w))

theorem dot_le_mag {v1 v2 : Vec} (hnd1 : keysNodup v1) (hnd2 : keysNodup v2) :
    ((dotProduct v1 v2 : ℚ) : ℝ) ≤ magnitude v1 * magnitude v2 := by
  have h1 : ((dotProduct v1 v2 : ℚ) : ℝ)
      = ∑ w ∈ (commonWords v1 v2).toFinset,
          ((lookup v1 w : ℚ) : ℝ) * ((lookup v2 w : ℚ) : ℝ) := by
    rw [dotProduct_eq_sum hnd1]
    push_cast
    rfl
  rw [h1]
  refine (Real.sum_mul_le_sqrt_mul_sqrt _ _ _).trans ?_
  have e1 : ∑ w ∈ (commonWords v1 v2).toFinset, ((lookup v1 w : ℚ) : ℝ) ^ 2
      ≤ ((sumSquares v1 : ℚ) : ℝ) := by
    have hq := sq_sum_le_sumSquares hnd1 _ (commonWords_subset_left v1 v2)
    calc ∑ w ∈ (commonWords v1 v2).toFinset, ((lookup v1 w : ℚ) : ℝ) ^ 2
        = (((∑ w ∈ (commonWords v1 v2).toFinset, lookup v1 w ^ 2 : ℚ)) : ℝ) := by
          push_cast; rfl
      _ ≤ _ := by exact_mod_cast hq
  have e2 : ∑ w ∈ (commonWords v1 v2).toFinset, ((lookup v2 w : ℚ) : ℝ) ^ 2
      ≤ ((sumSquares v2 : ℚ) : ℝ) := by
    have hq := sq_sum_le_sumSquares hnd2 _ (commonWords_subset_right v1 v2)
    calc ∑ w ∈ (commonWords v1 v2).toFinset, ((lookup v2 w : ℚ) : ℝ) ^ 2
        = (((∑ w ∈ (commonWords v1 v2).toFinset, lookup v2 w ^ 2 : ℚ)) : ℝ) := by
          push_cast; rfl
      _ ≤ _ := by exact_mod_cast hq
  exact mul_le_mul (Real.sqrt_le_sqrt e1) (Real.sqrt_le_sqrt e2)
    (Real.sqrt_nonneg _) (magnitude_nonneg v1)

/-- C6: for every pair of sparse vectors with non-negative weights
(dict-shaped, i.e. distinct keys), `cosine_similarity` is defined and
lies in `[0, 1]`; it is 0 whenever either magnitude is 0 or the key
intersection is empty, and no division by zero occurs (the zero cases
are returned before dividing). -/
theorem C6_cosine_bounds (v1 v2 : Vec) (hnd1 : keysNodup v1) (hnd2 : keysNodup v2)
    (h1 : ∀ p ∈ v1, 0 ≤ p.2) (h2 : ∀ p ∈ v2, 0 ≤ p.2) :
    0 ≤ cosine_similarity v1 v2 ∧ cosine_similarity v1 v2 ≤ 1 ∧
      ((magnitude v1 = 0 ∨ magnitude v2 = 0) → cosine_similarity v1 v2 = 0) ∧
      (commonWords v1 v2 = [] → cosine_similarity v1 v2 = 0) := by
  unfold cosine_similarity
  by_cases hc : commonWords v1 v2 = []
  · rw [if_pos hc]
    exact ⟨le_refl 0, zero_le_one, fun _ => rfl, fun _ => rfl⟩
  · rw [if_neg hc]
    by_cases hm : magnitude v1 = 0 ∨ magnitude v2 = 0
    · rw [if_pos hm]
      exact ⟨le_refl 0, zero_le_one, fun _ => rfl, fun h => absurd h hc⟩
    · rw [if_neg hm]
      have hm' := hm
      push_neg at hm'
      have hm1 : 0 < magnitude v1 :=
        lt_of_le_of_ne (magnitude_nonneg v1) (Ne.symm hm'.1)
      have hm2 : 0 < magnitude v2 :=
        lt_of_le_of_ne (magnitude_nonneg v2) (Ne.symm hm'.2)
      have hpos : 0 < magnitude v1 * magnitude v2 := mul_pos hm1 hm2
      refine ⟨?_, ?_, fun h => absurd h hm, fun h => absurd h hc⟩
      · refine div_nonneg ?_ hpos.le
        exact_mod_cast dotProduct_nonneg h1 h2
      · exact (div_le_one hpos).mpr (dot_le_mag hnd1 hnd2)

/-- C6 witness: the cosine bounds applied to the concrete pair
`[("abc", 1)]`, `[]` (empty intersection, score 0). -/
theorem C6_cosine_bounds_witness :
    0 ≤ cosine_similarity [("abc", (1 : ℚ))] [] ∧
      cosine_similarity [("abc", (1 : ℚ))] [] ≤ 1 ∧
      ((magnitude [("abc", (1 : ℚ))] = 0 ∨ magnitude ([] : Vec) = 0) →
        cosine_similarity [("abc", (1 : ℚ))] [] = 0) ∧
      (commonWords [("abc", (1 : ℚ))] [] = [] →
        cosine_similarity [("abc", (1 : ℚ))] [] = 0) :=
  C6_cosine_bounds _ _ (by unfold keysNodup; decide) (by unfold keysNodup; decide)
    (by decide) (by decide)

theorem maximalRuns_nil : maximalRuns [] = [] := by
  rw [maximalRuns]
  simp

theorem maximalRuns_cons_neg {c : Char} (cs : List Char) (hc : c.isAlphanum = false) :
    maximalRuns (c :: cs) = maximalRuns cs := by
  have hd : (c :: cs).dropWhile (fun x => !x.isAlphanum)
      = cs.dropWhile (fun x => !x.isAlphanum) := by
    rw [List.dropWhile_cons]
    simp [hc]
  conv_lhs => rw [maximalRuns]
  conv_rhs => rw [maximalRuns]
  simp only [hd]

theorem maximalRuns_cons_pos {c : Char} (cs : List Char) (hc : c.isAlphanum = true) :
    maximalRuns (c :: cs)
      = (c :: cs.takeWhile Char.isAlphanum) :: maximalRuns (cs.dropWhile Char.isAlphanum) := by
  rw [maximalRuns]
  have hd : (c :: cs).dropWhile (fun x => !x.isAlphanum) = c :: cs := by
    rw [List.dropWhile_cons]
    simp [hc]
  rw [dif_neg (by rw [hd]; exact List.cons_ne_nil c cs)]
  rw [hd, List.takeWhile_cons, if_pos hc, List.dropWhile_cons, if_pos hc]

/-- The runs produced once the loop of `preprocess_text` holds
`cur` as its current word and `l` is the remaining input. -/
def mergeRuns (cur : List Char) (l : List Char) : List (List Char) :=
  if cur = [] then maximalRuns l
  else (cur ++ l.takeWhile Char.isAlphanum) :: maximalRuns (l.dropWhile Char.isAlphanum)

theorem extractStep_alnum (ws : List (List Char)) (cur : List Char) {c : Char}
    (hc : c.isAlphanum = true) : extractStep (ws, cur) c = (ws, cur ++ [c]) := by
  unfold extractStep
  rw [if_pos hc]

theorem extractStep_sep_nil (ws : List (List Char)) {c : Char}
    (hc : c.isAlphanum = false) : extractStep (ws, []) c = (ws, []) := by
  unfold extractStep
  rw [if_neg (by simp [hc]), if_pos rfl]

theorem extractStep_sep (ws : List (List Char)) {cur : List Char} {c : Char}
    (hc : c.isAlphanum = false) (hcur : cur ≠ []) :
    extractStep (ws, cur) c = (ws ++ [cur], []) := by
  unfold extractStep
  rw [if_neg (by simp [hc]), if_neg hcur]

theorem foldExtract_go :
    ∀ (l : List Char) (acc : List (List Char)) (cur : List Char),
      flushWord (l.foldl extractStep (acc, cur)) = acc ++ mergeRuns cur l := by
  intro l
  induction l with
  | nil =>
    intro acc cur
    by_cases hcur : cur = []
    · subst hcur
      simp [flushWord, mergeRuns, maximalRuns_nil]
    · simp [flushWord, mergeRuns, hcur, maximalRuns_nil]
  | cons c cs ih =>
    intro acc cur
    rw [List.foldl_cons]
    by_cases hc : c.isAlphanum = true
    · rw [extractStep_alnum acc cur hc, ih]
      congr 1
      by_cases hcur : cur = []
      · subst hcur
        have h1 : mergeRuns ([] ++ [c]) cs
            = ([c] ++ cs.takeWhile Char.isAlphanum)
                :: maximalRuns (cs.dropWhile Char.isAlphanum) := by
          unfold mergeRuns
          rw [if_neg (by simp)]
          simp
        have h2 : mergeRuns [] (c :: cs) = maximalRuns (c :: cs) := by
          unfold mergeRuns
          rw [if_pos rfl]
        rw [h1, h2, maximalRuns_cons_pos cs hc]
        simp
      · have h1 : mergeRuns (cur ++ [c]) cs
            = ((cur ++ [c]) ++ cs.takeWhile Char.isAlphanum)
                :: maximalRuns (cs.dropWhile Char.isAlphanum) := by
          unfold mergeRuns
          rw [if_neg (by simp)]
        have h2 : mergeRuns cur (c :: cs)
            = (cur ++ (c :: cs).takeWhile Char.isAlphanum)
                :: maximalRuns ((c :: cs).dropWhile Char.isAlphanum) := by
          unfold mergeRuns
          rw [if_neg hcur]
        rw [h1, h2, List.takeWhile_cons, if_pos hc, List.dropWhile_cons,
          if_pos hc]
        simp
    · have hc' : c.isAlphanum = false := Bool.eq_false_iff.mpr hc
      by_cases hcur : cur = []
      · subst hcur
        rw [extractStep_sep_nil acc hc', ih]
        congr 1
        have h2 : mergeRuns [] (c :: cs) = maximalRuns (c :: cs) := by
          unfold mergeRuns
          rw [if_pos rfl]
        have h3 : mergeRuns [] cs = maximalRuns cs := by
          unfold mergeRuns
          rw [if_pos rfl]
        rw [h2, h3, maximalRuns_cons_neg cs hc']
      · rw [extractStep_sep acc hc' hcur, ih]
        have h1 : mergeRuns [] cs = maximalRuns cs := by
          unfold mergeRuns
          rw [if_pos rfl]
        have h2 : mergeRuns cur (c :: cs) = (cur ++ []) :: maximalRuns (c :: cs) := by
          unfold mergeRuns
          rw [if_neg hcur, List.takeWhile_cons, if_neg (by simp [hc']),
            List.dropWhile_cons, if_neg (by simp [hc'])]
        rw [h1, h2, maximalRuns_cons_neg cs hc']
        simp

theorem extractWordsL_eq (cs : List Char) : extractWordsL cs = maximalRuns cs := by
  unfold extractWordsL
  rw [foldExtract_go cs [] []]
  simp [mergeRuns]

/-- C7: the tokenizer (`ImprovedVectorStore.preprocess_text`)
lowercases its input, emits exactly the maximal runs of alphanumeric
characters — every non-alphanumeric character is a separator and is
discarded, not replaced — and then discards tokens of length ≤ 2 and
tokens of the fixed stop-word set: the loop-based implementation equals
the spec-side pipeline `tokenizeSpec` on every input string. -/
theorem C7_tokenizer_maximal_runs (text : String) :
    preprocess_text text = tokenizeSpec text := by
  unfold preprocess_text tokenizeSpec
  rw [extractWordsL_eq]

theorem rankPairs_length (scoreOf : Nat → ℝ) (n k : Nat) :
    (rankPairs scoreOf n k).length = min k n := by
  unfold rankPairs
  rw [List.length_take, List.length_insertionSort, List.length_map,
    List.length_range]

theorem rankPairs_snd_nodup (scoreOf : Nat → ℝ) (n : Nat) :
    ((List.insertionSort descLex
        ((List.range n).map fun idx => (scoreOf idx, idx))).map Prod.snd).Nodup := by
  have hperm :=
    List.perm_insertionSort descLex ((List.range n).map fun idx => (scoreOf idx, idx))
  have horig : (((List.range n).map fun idx => (scoreOf idx, idx)).map Prod.snd)
      = List.range n := by
    rw [List.map_map]
    have hfun : (Prod.snd ∘ fun idx : Nat => (scoreOf idx, idx)) = id := rfl
    rw [hfun, List.map_id]
  have hnod : (((List.range n).map fun idx => (scoreOf idx, idx)).map Prod.snd).Nodup := by
    rw [horig]
    exact List.nodup_range n
  exact (hperm.map Prod.snd).symm.nodup hnod

/-- C1, amended: the ranking stage shared by
`SimpleVectorStore.search` and `ImprovedVectorStore.search` returns the
`(score, id)` pairs sorted by non-increasing score, but two entries
with equal scores appear in DESCENDING order of insertion id
(`sort(reverse=True)` reverses the id tie-break as well). -/
theorem C1_ranking_sorted (scoreOf : Nat → ℝ) (n k : Nat) :
    (rankPairs scoreOf n k).Pairwise
      (fun a b => b.1 ≤ a.1 ∧ (a.1 = b.1 → b.2 < a.2)) := by
  have hs : List.Pairwise descLex
      (List.insertionSort descLex ((List.range n).map fun idx => (scoreOf idx, idx))) :=
    List.sorted_insertionSort descLex _
  have hne : (List.insertionSort descLex
      ((List.range n).map fun idx => (scoreOf idx, idx))).Pairwise
        (fun a b => a.2 ≠ b.2) :=
    List.pairwise_map.mp (rankPairs_snd_nodup scoreOf n)
  have hcomb := hs.and hne
  have htarget : (List.insertionSort descLex
      ((List.range n).map fun idx => (scoreOf idx, idx))).Pairwise
        (fun a b => b.1 ≤ a.1 ∧ (a.1 = b.1 → b.2 < a.2)) := by
    refine hcomb.imp ?_
    rintro a b ⟨hlex, hsnd⟩
    rcases hlex with hlt | ⟨heq, hle⟩
    · exact ⟨hlt.le, fun h => absurd (h ▸ hlt) (lt_irrefl _)⟩
    · exact ⟨heq.le, fun _ => lt_of_le_of_ne hle (Ne.symm hsnd)⟩
  exact htarget.sublist (List.take_sublist k _)

/-- The two-document corpus used for the concrete ranking and
empty-query counterexamples. -/
def demoStore : Store := buildStore [("aaa", []), ("bbb", [])]

theorem cosine_nil_left (v : Vec) : cosine_similarity [] v = 0 := by
  unfold cosine_similarity
  have h : commonWords [] v = [] := rfl
  rw [if_pos h]

theorem SVS_cwv_empty : SVS_create_word_vector "" = [] := rfl

theorem demo_ranked : SVS_ranked demoStore "" 2 = [((0 : ℝ), 1), ((0 : ℝ), 0)] := by
  unfold SVS_ranked
  rw [SVS_cwv_empty, show demoStore.documents.length = 2 from rfl]
  unfold rankPairs
  have hmap : (List.range 2).map
      (fun idx => (cosine_similarity [] (dictGet demoStore.word_vectors idx), idx))
      = [((0 : ℝ), 0), ((0 : ℝ), 1)] := by
    rw [show List.range 2 = [0, 1] from rfl]
    simp [cosine_nil_left]
  rw [hmap]
  have hni : ¬ descLex ((0 : ℝ), 0) ((0 : ℝ), 1) := by
    unfold descLex
    norm_num
  have hsort : List.insertionSort descLex [((0 : ℝ), 0), ((0 : ℝ), 1)]
      = [((0 : ℝ), 1), ((0 : ℝ), 0)] := by
    simp only [List.insertionSort, List.orderedInsert]
    rw [if_neg hni]
  rw [hsort]
  rfl

/-- C1 counterexample: on the two-document corpus with an empty query
both scores are 0 and the ranked pairs come out with ids in descending
order, so the claimed ascending id tie-break fails. -/
theorem C1_counterexample_ties_descending :
    ¬ (SVS_ranked demoStore "" 2).Pairwise (fun a b => a.1 = b.1 → a.2 < b.2) := by
  rw [demo_ranked]
  intro h
  have h1 := (List.pairwise_cons.mp h).1 ((0 : ℝ), 0) (by simp)
  have h2 := h1 rfl
  norm_num at h2

theorem orderedInsert_eq_append {α : Type} (r : α → α → Prop) [DecidableRel r]
    (x : α) : ∀ l : List α, (∀ b ∈ l, ¬ r x b) →
      List.orderedInsert r x l = l ++ [x] := by
  intro l
  induction l with
  | nil => intro _; rfl
  | cons b rest ih =>
    intro h
    simp only [List.orderedInsert]
    rw [if_neg (h b (List.mem_cons_self b rest)),
      ih (fun y hy => h y (List.mem_cons_of_mem b hy))]
    rfl

theorem sortConst (c : ℝ) :
    ∀ l : List Nat, l.Pairwise (· < ·) →
      List.insertionSort descLex (l.map fun i => (c, i))
        = l.reverse.map fun i => (c, i) := by
  intro l
  induction l with
  | nil => intro _; rfl
  | cons a rest ih =>
    intro hp
    have hp' := List.pairwise_cons.mp hp
    rw [List.map_cons]
    simp only [List.insertionSort]
    rw [ih hp'.2]
    rw [orderedInsert_eq_append descLex (c, a) _ ?_]
    · rw [List.reverse_cons, List.map_append]
      rfl
    · intro b hb
      rcases List.mem_map.mp hb with ⟨j, hj, rfl⟩
      have hj' : a < j := hp'.1 j (List.mem_reverse.mp hj)
      rintro (h | ⟨-, h⟩)
      · exact lt_irrefl c h
      · exact absurd h (not_le.mpr hj')

/-- C2, amended: with a non-empty corpus, `k ≥ 1` and an empty query
string, every document scores 0 and `SimpleVectorStore.search` returns
the LAST `min(k, corpus size)` documents, in REVERSE insertion order
(descending id), each with score 0 — not the first documents in
insertion order. -/
theorem C2_empty_query_reversed (s : Store) (k : Nat) (hk : 1 ≤ k)
    (hne : s.documents ≠ []) :
    SVS_search s "" k
      = ((List.range s.documents.length).reverse.take k).map
          (fun i => (s.documents.getD i "", (0 : ℝ), s.metadata.getD i [])) := by
  clear hk hne
  unfold SVS_search SVS_ranked rankPairs
  rw [SVS_cwv_empty]
  have hmap : (List.range s.documents.length).map
      (fun idx => (cosine_similarity [] (dictGet s.word_vectors idx), idx))
      = (List.range s.documents.length).map (fun i => ((0 : ℝ), i)) :=
    List.map_congr_left (fun i _ => by rw [cosine_nil_left])
  rw [hmap, sortConst 0 _ (List.pairwise_lt_range _)]
  rw [← List.map_take, List.map_map]
  rfl

/-- C2 witness: the amended empty-query behavior at the concrete
two-document corpus with `k = 2`. -/
theorem C2_empty_query_reversed_witness :
    1 ≤ 2 ∧ demoStore.documents ≠ [] ∧
      SVS_search demoStore "" 2
        = ((List.range demoStore.documents.length).reverse.take 2).map
            (fun i => (demoStore.documents.getD i "", (0 : ℝ), demoStore.metadata.getD i [])) :=
  ⟨by decide, by decide, C2_empty_query_reversed demoStore 2 (by decide) (by decide)⟩

/-- C2 counterexample: on the two-document corpus, an empty query with
`k = 2` does NOT return the first two documents in insertion order —
the texts come back reversed. -/
theorem C2_counterexample_not_insertion_order :
    (SVS_search demoStore "" 2).map (fun r => r.1) ≠ demoStore.documents.take 2 := by
  have h : SVS_search demoStore "" 2
      = [("bbb", (0 : ℝ), []), ("aaa", (0 : ℝ), [])] := by
    unfold SVS_search
    rw [demo_ranked]
    rfl
  rw [h]
  decide

/-- C3: for every corpus and every `k ≥ 1`, `search` returns exactly
`min(k, corpus size)` results for both store variants, and on the empty
store it returns the empty list rather than raising. -/
theorem C3_search_length (s : Store) (q : String) (k : Nat) (hk : 1 ≤ k) :
    (SVS_search s q k).length = min k s.documents.length ∧
      (IVS_search s q k).length = min k s.documents.length ∧
      SVS_search emptyStore q k = [] ∧ IVS_search emptyStore q k = [] := by
  clear hk
  refine ⟨?_, ?_, ?_, ?_⟩
  · unfold SVS_search SVS_ranked
    rw [List.length_map, rankPairs_length]
  · unfold IVS_search
    rw [List.length_map, rankPairs_length]
  · unfold SVS_search SVS_ranked rankPairs
    simp [emptyStore]
  · unfold IVS_search rankPairs
    simp [emptyStore]

/-- C3 witness: the length contract at the two-document corpus with
`k = 3 > corpus size`. -/
theorem C3_search_length_witness :
    1 ≤ 3 ∧
      ((SVS_search demoStore "x" 3).length = min 3 demoStore.documents.length ∧
        (IVS_search demoStore "x" 3).length = min 3 demoStore.documents.length ∧
        SVS_search emptyStore "x" 3 = [] ∧ IVS_search emptyStore "x" 3 = []) :=
  ⟨by decide, C3_search_length demoStore "x" 3 (by decide)⟩

/-- C4, amended: `search` performs no validation of `k`: for `k = 0`
it simply returns the empty list instead of raising
`InvalidArgumentError` (no such exception exists in the code). -/
theorem C4_k_zero_returns_empty (s : Store) (q : String) :
    SVS_search s q 0 = [] := by
  unfold SVS_search SVS_ranked rankPairs
  rw [List.take_zero, List.map_nil]

/-- C4 counterexample: on the two-document corpus, `search(query, k=0)`
returns an (empty) result list; no error is raised. -/
theorem C4_counterexample_no_error :
    SVS_search demoStore "" 0 = [] := by
  unfold SVS_search SVS_ranked rankPairs
  rw [List.take_zero, List.map_nil]

theorem dictInsert_fresh {d : List (Nat × Vec)} {k : Nat} (v : Vec)
    (hk : k ∉ d.map Prod.fst) : dictInsert d k v = d ++ [(k, v)] := by
  unfold dictInsert
  have h : ¬ d.any (fun p => p.1 = k) = true := by
    intro hany
    rcases List.any_eq_true.mp hany with ⟨p, hp, hpk⟩
    have hpk' : p.1 = k := by simpa using hpk
    exact hk (hpk' ▸ List.mem_map_of_mem Prod.fst hp)
  rw [if_neg h]

/-- C10: starting from a fresh store, after any sequence of
`add_document` calls the documents list, the metadata list and the
vector dict all have length `n`, the dict keys are exactly the ids
`0 .. n-1` in order, and the document stored at id `i` is the text of
the `(i+1)`-th call: ids are sequential, 0-based and stable. -/
theorem C10_store_invariant (calls : List (String × Metadata)) :
    (buildStore calls).documents.length = calls.length ∧
      (buildStore calls).metadata.length = calls.length ∧
      (buildStore calls).word_vectors.map Prod.fst = List.range calls.length ∧
      ∀ i, i < calls.length →
        (buildStore calls).documents.getD i "" = (calls.getD i ("", [])).1 := by
  induction calls using List.reverseRecOn with
  | nil => exact ⟨rfl, rfl, rfl, fun i hi => absurd hi (by simp)⟩
  | append_singleton l c ih =>
    rcases ih with ⟨h1, h2, h3, h4⟩
    have hstep : buildStore (l ++ [c]) = SVS_add_document (buildStore l) c.1 c.2 := by
      unfold buildStore
      rw [List.foldl_append]
      rfl
    rw [hstep]
    unfold SVS_add_document
    refine ⟨?_, ?_, ?_, ?_⟩
    · simp [h1]
    · simp [h2]
    · have hlen : ((buildStore l).documents ++ [c.1]).length - 1 = l.length := by
        simp [h1]
      rw [hlen]
      have hk : l.length ∉ (buildStore l).word_vectors.map Prod.fst := by
        rw [h3]
        simp
      rw [dictInsert_fresh _ hk, List.map_append, h3]
      simp [List.range_succ]
    · intro i hi
      rw [List.length_append, List.length_singleton] at hi
      rcases Nat.lt_succ_iff_lt_or_eq.mp hi with hlt | heq
      · rw [List.getD_append _ _ _ i (by rw [h1]; exact hlt),
          List.getD_append _ _ _ i hlt]
        exact h4 i hlt
      · subst heq
        have e1 : ((buildStore l).documents ++ [c.1]).getD l.length "" = c.1 := by
          rw [List.getD_eq_getElem?_getD, ← h1, List.getElem?_concat_length]
          rfl
        have e2 : ((l ++ [c]).getD l.length ("", [])).1 = c.1 := by
          rw [List.getD_eq_getElem?_getD, List.getElem?_concat_length]
          rfl
        rw [e1, e2]

/-- C10 witness: the invariant at the concrete one-call sequence. -/
theorem C10_store_invariant_witness :
    (buildStore [("hello world", [])]).documents.length = 1 ∧
      (buildStore [("hello world", [])]).metadata.length = 1 ∧
      (buildStore [("hello world", [])]).word_vectors.map Prod.fst = List.range 1 ∧
      (0 < 1 ∧ (buildStore [("hello world", [])]).documents.getD 0 ""
        = ([("hello world", ([] : Metadata))].getD 0 ("", [])).1) :=
  ⟨(C10_store_invariant _).1, (C10_store_invariant _).2.1,
   (C10_store_invariant _).2.2.1,
   by decide, (C10_store_invariant _).2.2.2 0 (by decide)⟩

/-- A store with one document, used to exhibit the partial mutation
that `load` performs on malformed data. -/
def store8 : Store := ⟨["doc"], [[]], []⟩

/-- Parsed JSON data that has a `documents` field but no `metadata`
field: `data['metadata']` raises `KeyError` after `self.documents` has
already been reassigned. -/
def data8 : RawData := ⟨some [], none, none⟩

/-- C8 counterexample: loading `data8` into `store8` raises, yet the
resulting in-memory state differs from the state before the call — the
documents list has already been replaced, so `load` is not
all-or-nothing. -/
theorem C8_counterexample_partial_mutation :
    (SVS_load store8 data8).1.isSome = true ∧ (SVS_load store8 data8).2 ≠ store8 := by
  decide

/-- C8, amended: malformed persisted data makes `load` raise, but the
previous in-memory state is only preserved when the failure happens
before the first assignment — in particular when the `documents` key is
absent; a failure at a later field leaves the earlier assignments in
place (see the counterexample). -/
theorem C8_load_missing_documents (s : Store) (d : RawData)
    (h : d.documents = none) : SVS_load s d = (some LoadErr.keyError, s) := by
  unfold SVS_load
  rw [h]

/-- C8 witness: loading fully-empty data leaves the store untouched. -/
theorem C8_load_missing_documents_witness :
    (⟨none, none, none⟩ : RawData).documents = none ∧
      SVS_load store8 ⟨none, none, none⟩ = (some LoadErr.keyError, store8) :=
  ⟨rfl, C8_load_missing_documents store8 _ rfl⟩

theorem stringToNat_natToString (n : Nat) : stringToNat? (natToString n) = some n := by
  by_cases h0 : n = 0
  · subst h0
    rfl
  · unfold natToString
    rw [if_neg h0]
    have hne : Nat.digits 10 n ≠ [] := Nat.digits_ne_nil_iff_ne_zero.mpr h0
    have hlt : ∀ d ∈ Nat.digits 10 n, d < 10 := fun d hd =>
      Nat.digits_lt_base (by norm_num) hd
    have htl : (String.mk ((Nat.digits 10 n).reverse.map
        (fun d => Char.ofNat (48 + d)))).toList
        = (Nat.digits 10 n).reverse.map (fun d => Char.ofNat (48 + d)) := rfl
    unfold stringToNat?
    have hcond : (String.mk ((Nat.digits 10 n).reverse.map
        (fun d => Char.ofNat (48 + d)))).toList ≠ [] ∧
        ((String.mk ((Nat.digits 10 n).reverse.map
          (fun d => Char.ofNat (48 + d)))).toList.all Char.isDigit) := by
      rw [htl]
      constructor
      · simp [hne]
      · rw [List.all_eq_true]
        intro c hc
        rcases List.mem_map.mp hc with ⟨d, hd, rfl⟩
        have hd10 : d < 10 := hlt d (List.mem_reverse.mp hd)
        interval_cases d <;> decide
    rw [if_pos hcond]
    congr 1
    rw [htl, List.map_map]
    have hcomp : ∀ d ∈ (Nat.digits 10 n).reverse,
        ((fun c : Char => c.toNat - 48) ∘ fun d => Char.ofNat (48 + d)) d = id d := by
      intro d hd
      have hd10 : d < 10 := hlt d (List.mem_reverse.mp hd)
      simp only [Function.comp_apply, id]
      interval_cases d <;> decide
    rw [List.map_congr_left hcomp, List.map_id, List.reverse_reverse,
      Nat.ofDigits_digits]

theorem parseKeys_save : ∀ l : List (Nat × Vec),
    parseKeys (l.map (fun p => (natToString p.1, p.2))) = some l := by
  intro l
  induction l with
  | nil => rfl
  | cons p rest ih =>
    rw [List.map_cons]
    unfold parseKeys
    rw [stringToNat_natToString, ih]

/-- C9: `load(save(x))` restores the store losslessly, whatever the
previous in-memory state was: the documents, the metadata and every
vector (with its integer id round-tripped through its JSON string key)
come back exactly equal — in particular equal within the claimed 1e-9
tolerance — and no error is raised. -/
theorem C9_save_load_roundtrip (s t : Store) :
    SVS_load t (SVS_save s) = (none, s) := by
  unfold SVS_save SVS_load
  dsimp only
  rw [parseKeys_save]

end Day18
